import Mathlib

/-!
Verification development for the simple-svg library (src/simple_svg.hpp).

The C++ header is shallowly embedded: `double` values are modelled as exact
rationals (`Rat`), `std::string` building as Lean `String` concatenation,
and the polymorphic `Shape` class hierarchy as a closed inductive type.
Number-to-text conversion (`operator<<` on `double`) is modelled by an exact
rendering of the rational (integer part only when the denominator is 1), which
agrees with the C++ output on all integral values used in concrete examples.
-/

namespace SimpleSvg

/-- Mirrors `svg::Point` (simple_svg.hpp): a pair of real coordinates. -/
structure Point where
  x : Rat
  y : Rat
deriving DecidableEq, Repr

/-- Mirrors `svg::Dimensions`: width and height of a canvas. -/
structure Dimensions where
  width : Rat
  height : Rat
deriving DecidableEq, Repr

/-- Mirrors `svg::Layout::Origin`. -/
inductive Origin where
  | TopLeft
  | BottomLeft
  | TopRight
  | BottomRight
deriving DecidableEq, Repr

/-- Mirrors `svg::Layout`: dimensions, scale, origin corner and origin offset. -/
structure Layout where
  dimensions : Dimensions
  scale : Rat
  origin : Origin
  origin_offset : Point
deriving DecidableEq, Repr

/-- Mirrors `svg::translateX`: convert a user-space x coordinate to SVG space. -/
def translateX (x : Rat) (layout : Layout) : Rat :=
  if layout.origin = Origin.BottomRight ∨ layout.origin = Origin.TopRight then
    layout.dimensions.width - ((x + layout.origin_offset.x) * layout.scale)
  else
    (layout.origin_offset.x + x) * layout.scale

/-- Mirrors `svg::translateY`: convert a user-space y coordinate to SVG space. -/
def translateY (y : Rat) (layout : Layout) : Rat :=
  if layout.origin = Origin.BottomLeft ∨ layout.origin = Origin.BottomRight then
    layout.dimensions.height - ((y + layout.origin_offset.y) * layout.scale)
  else
    (layout.origin_offset.y + y) * layout.scale

/-- Mirrors `svg::translateScale`: lengths are only scaled. -/
def translateScale (dimension : Rat) (layout : Layout) : Rat :=
  dimension * layout.scale

/-- Models the C++ stream rendering of a numeric value: an exact rational is
shown as its integer numerator when the denominator is 1 (which matches the
iostream output for integral doubles), and as `num/den` otherwise. -/
def showNum (q : Rat) : String :=
  if q.den = 1 then toString q.num else toString q.num ++ "/" ++ toString q.den

/-- Mirrors `svg::attribute`: renders one `name="value&unit" ` fragment. -/
def attrStr (name value unit : String) : String :=
  name ++ "=\"" ++ value ++ unit ++ "\" "

/-- Mirrors `svg::elemStart`. -/
def elemStart (element_name : String) : String :=
  "<" ++ element_name ++ " "

/-- Mirrors `svg::elemEnd`. -/
def elemEnd (element_name : String) : String :=
  "</" ++ element_name ++ ">\n"

/-- Mirrors `svg::emptyElemEnd`. -/
def emptyElemEnd : String :=
  "/>\n"

/-- Character-level core of `svg::indent`: when `atLineStart` is true the
next actual character gets a tab in front of it, and a newline makes the
following character (if any) a line start again. This walks the string one
character at a time instead of one line at a time, with the same output as
the chunking loop of `svg::indent`: a tab lands exactly in front of the
first character of every line (also a lone newline character of an empty
line), and a trailing newline is not followed by a tab. -/
def indentGo : Bool → List Char → List Char
  | _, [] => []
  | atLineStart, c :: cs =>
    (if atLineStart then ['\t'] else []) ++ (c :: indentGo (c == '\n') cs)

/-- Mirrors `svg::indent`: inserts a tab at the beginning of each line. -/
def indent (original : String) : String :=
  String.mk (indentGo true original.data)

/-- Mirrors `svg::Color`: a transparency flag plus rgb channels. -/
structure Color where
  transparent : Bool
  red : Int
  green : Int
  blue : Int
deriving DecidableEq, Repr

/-- Mirrors `svg::Color::toString` (the `Layout` argument is unused there). -/
def Color.toString (_layout : Layout) (c : Color) : String :=
  if c.transparent then "none"
  else "rgb(" ++ ToString.toString c.red ++ "," ++ ToString.toString c.green ++ ","
    ++ ToString.toString c.blue ++ ")"

/-- Mirrors `svg::Fill`. -/
structure Fill where
  color : Color
deriving DecidableEq, Repr

/-- Mirrors `svg::Fill::toString`. -/
def Fill.toString (layout : Layout) (f : Fill) : String :=
  attrStr "fill" (Color.toString layout f.color) ""

/-- Mirrors `svg::Stroke`: a negative width is the "absent" sentinel. -/
structure Stroke where
  width : Rat
  color : Color
  nonScaling : Bool
deriving DecidableEq, Repr

/-- Mirrors `svg::Stroke::toString`: empty when the width is negative. -/
def Stroke.toString (layout : Layout) (s : Stroke) : String :=
  if s.width < 0 then ""
  else
    attrStr "stroke-width" (showNum (translateScale s.width layout)) ""
      ++ attrStr "stroke" (Color.toString layout s.color) ""
      ++ (if s.nonScaling then attrStr "vector-effect" "non-scaling-stroke" "" else "")

/-- Mirrors `svg::Font`. -/
structure Font where
  size : Rat
  family : String
deriving DecidableEq, Repr

/-- Mirrors `svg::Font::toString`. -/
def Font.toString (layout : Layout) (f : Font) : String :=
  attrStr "font-size" (showNum (translateScale f.size layout)) ""
    ++ attrStr "font-family" f.family ""

/-- Concatenation of a list of fragments, modelling the string-accumulation
loops of the serializers. -/
def strJoin : List String → String
  | [] => ""
  | s :: rest => s ++ strJoin rest

/-- The closed polymorphic `svg::Shape` family: Circle, Elipse, Rectangle,
Line, Polygon, Path, Polyline, Text and Container (simple_svg.hpp). A `Circle`
stores its radius (`diameter / 2`), an `Elipse` its two half axes; a `Path`
stores a list of subpaths; a `Container` exclusively owns its children. -/
inductive Shape where
  | circle (center : Point) (radius : Rat) (fill : Fill) (stroke : Stroke)
  | elipse (center : Point) (radius_width radius_height : Rat) (fill : Fill) (stroke : Stroke)
  | rectangle (edge : Point) (width height : Rat) (fill : Fill) (stroke : Stroke)
  | line (start_point end_point : Point) (stroke : Stroke)
  | polygon (points : List Point) (fill : Fill) (stroke : Stroke)
  | path (paths : List (List Point)) (fill : Fill) (stroke : Stroke)
  | polyline (points : List Point) (fill : Fill) (stroke : Stroke)
  | text (origin : Point) (content : String) (font : Font) (fill : Fill) (stroke : Stroke)
  | container (fill : Fill) (stroke : Stroke) (childs : List Shape)

/-- One `x,y ` pair as written by the point loops of `Polygon::toString`,
`Path::toString` and `Polyline::toString`. -/
def pointPairStr (layout : Layout) (p : Point) : String :=
  showNum (translateX p.x layout) ++ "," ++ showNum (translateY p.y layout) ++ " "

/-- The `d` attribute body built by the loop in `svg::Path::toString`: empty
subpaths are skipped, every non-empty subpath becomes `M<points>z `. -/
def dOfPaths (layout : Layout) : List (List Point) → String
  | [] => ""
  | subpath :: rest =>
    (if subpath = [] then ""
     else "M" ++ strJoin (subpath.map (pointPairStr layout)) ++ "z ")
      ++ dOfPaths layout rest

mutual

/-- Mirrors the `toString(Layout)` override of each `svg::Shape` subclass. -/
def Shape.toString (layout : Layout) : Shape → String
  | .circle center radius fill stroke =>
    elemStart "circle" ++ attrStr "cx" (showNum (translateX center.x layout)) ""
      ++ attrStr "cy" (showNum (translateY center.y layout)) ""
      ++ attrStr "r" (showNum (translateScale radius layout)) ""
      ++ Fill.toString layout fill ++ Stroke.toString layout stroke ++ emptyElemEnd
  | .elipse center radius_width radius_height fill stroke =>
    elemStart "ellipse" ++ attrStr "cx" (showNum (translateX center.x layout)) ""
      ++ attrStr "cy" (showNum (translateY center.y layout)) ""
      ++ attrStr "rx" (showNum (translateScale radius_width layout)) ""
      ++ attrStr "ry" (showNum (translateScale radius_height layout)) ""
      ++ Fill.toString layout fill ++ Stroke.toString layout stroke ++ emptyElemEnd
  | .rectangle edge width height fill stroke =>
    elemStart "rect" ++ attrStr "x" (showNum (translateX edge.x layout)) ""
      ++ attrStr "y" (showNum (translateY edge.y layout)) ""
      ++ attrStr "width" (showNum (translateScale width layout)) ""
      ++ attrStr "height" (showNum (translateScale height layout)) ""
      ++ Fill.toString layout fill ++ Stroke.toString layout stroke ++ emptyElemEnd
  | .line start_point end_point stroke =>
    elemStart "line" ++ attrStr "x1" (showNum (translateX start_point.x layout)) ""
      ++ attrStr "y1" (showNum (translateY start_point.y layout)) ""
      ++ attrStr "x2" (showNum (translateX end_point.x layout)) ""
      ++ attrStr "y2" (showNum (translateY end_point.y layout)) ""
      ++ Stroke.toString layout stroke ++ emptyElemEnd
  | .polygon points fill stroke =>
    elemStart "polygon" ++ "points=\"" ++ strJoin (points.map (pointPairStr layout))
      ++ "\" " ++ Fill.toString layout fill ++ Stroke.toString layout stroke ++ emptyElemEnd
  | .path paths fill stroke =>
    elemStart "path" ++ "d=\"" ++ dOfPaths layout paths ++ "\" "
      ++ "fill-rule=\"evenodd\" "
      ++ Fill.toString layout fill ++ Stroke.toString layout stroke ++ emptyElemEnd
  | .polyline points fill stroke =>
    elemStart "polyline" ++ "points=\"" ++ strJoin (points.map (pointPairStr layout))
      ++ "\" " ++ Fill.toString layout fill ++ Stroke.toString layout stroke ++ emptyElemEnd
  | .text origin content font fill stroke =>
    elemStart "text" ++ attrStr "x" (showNum (translateX origin.x layout)) ""
      ++ attrStr "y" (showNum (translateY origin.y layout)) ""
      ++ Fill.toString layout fill ++ Stroke.toString layout stroke
      ++ Font.toString layout font ++ ">" ++ content ++ elemEnd "text"
  | .container fill stroke childs =>
    if childs.isEmpty then ""
    else
      elemStart "g" ++ Fill.toString layout fill ++ Stroke.toString layout stroke ++ ">\n"
        ++ childsToString layout childs ++ elemEnd "g"

/-- The child loop of `svg::Container::toString`: each child fragment is
indented and appended in insertion order. -/
def childsToString (layout : Layout) : List Shape → String
  | [] => ""
  | child :: rest => indent (Shape.toString layout child) ++ childsToString layout rest

end

/-- The component-wise point translation performed by every `offset` override. -/
def offsetPoint (d p : Point) : Point :=
  ⟨p.x + d.x, p.y + d.y⟩

/-- Mirrors the `offset(Point)` override of each `svg::Shape` subclass;
`Container::offset` has an empty body, so a container is left unchanged. -/
def Shape.offset (d : Point) : Shape → Shape
  | .circle center radius fill stroke => .circle (offsetPoint d center) radius fill stroke
  | .elipse center rw rh fill stroke => .elipse (offsetPoint d center) rw rh fill stroke
  | .rectangle edge width height fill stroke =>
    .rectangle (offsetPoint d edge) width height fill stroke
  | .line start_point end_point stroke =>
    .line (offsetPoint d start_point) (offsetPoint d end_point) stroke
  | .polygon points fill stroke => .polygon (points.map (offsetPoint d)) fill stroke
  | .path paths fill stroke => .path (paths.map (fun sp => sp.map (offsetPoint d))) fill stroke
  | .polyline points fill stroke => .polyline (points.map (offsetPoint d)) fill stroke
  | .text origin content font fill stroke =>
    .text (offsetPoint d origin) content font fill stroke
  | .container fill stroke childs => .container fill stroke childs

/-- Negation of an offset vector, used to state the offset round trip. -/
def Point.neg (p : Point) : Point :=
  ⟨-p.x, -p.y⟩

/-- Mirrors `svg::Path::startNewSubPath`: a fresh empty subpath is opened only
when there is no subpath yet or the last one is non-empty. -/
def startNewSubPath (paths : List (List Point)) : List (List Point) :=
  match paths.getLast? with
  | none => paths ++ [[]]
  | some l => if l = [] then paths else paths ++ [[]]

/-- The subpath state of a freshly constructed `svg::Path` (both constructors
call `startNewSubPath()` on the empty state). -/
def pathNew : List (List Point) :=
  startNewSubPath []

/-- Mirrors `svg::Path::operator<<`: the point is pushed onto the last
subpath. -/
def pathAppend (paths : List (List Point)) (pt : Point) : List (List Point) :=
  paths.dropLast ++ [(paths.getLast?.getD []) ++ [pt]]

/-- Mirrors `svg::Document`: a file name, a layout, and the list of already
serialized body fragments (`body_nodes_str_list`). -/
structure Document where
  file_name : String
  layout : Layout
  body_nodes_str_list : List String
deriving DecidableEq, Repr

/-- Mirrors the `svg::Document` constructor: no body fragments yet. -/
def Document.new (file_name : String) (layout : Layout) : Document :=
  ⟨file_name, layout, []⟩

/-- Mirrors `svg::Document::operator<<`: the shape is serialized immediately
and only the resulting string is stored. -/
def Document.append (doc : Document) (shape : Shape) : Document :=
  { doc with body_nodes_str_list := doc.body_nodes_str_list ++ [Shape.toString doc.layout shape] }

/-- The fixed preamble written by `svg::Document::writeToStream` up to and
including the opening `<svg ...>` tag. -/
def svgPreamble (layout : Layout) : String :=
  "<?xml " ++ attrStr "version" "1.0" "" ++ attrStr "standalone" "no" ""
    ++ "?>\n<!DOCTYPE svg PUBLIC \"-//W3C//DTD SVG 1.1//EN\" "
    ++ "\"http://www.w3.org/Graphics/SVG/1.1/DTD/svg11.dtd\">\n<svg "
    ++ attrStr "width" (showNum layout.dimensions.width) "px"
    ++ attrStr "height" (showNum layout.dimensions.height) "px"
    ++ attrStr "xmlns" "http://www.w3.org/2000/svg" ""
    ++ attrStr "version" "1.1" "" ++ ">\n"

/-- The body part of `svg::Document::writeToStream`: every stored fragment is
indented and written in order. -/
def Document.body (doc : Document) : String :=
  strJoin (doc.body_nodes_str_list.map indent)

/-- Mirrors `svg::Document::toString` (via `writeToStream`): preamble, the
indented body fragments, and the closing `</svg>` tag. -/
def Document.toString (doc : Document) : String :=
  svgPreamble doc.layout ++ doc.body ++ elemEnd "svg"

/-- A two-variable program state: a shape held by the caller and a document,
used to express what happens when the caller keeps mutating a shape after
streaming it into a document. -/
structure ProgState where
  sh : Shape
  doc : Document

/-- The program step `doc << sh`. -/
def stepAppend (st : ProgState) : ProgState :=
  { st with doc := st.doc.append st.sh }

/-- The program step `sh.offset(d)`: only the caller-held shape changes. -/
def stepOffset (d : Point) (st : ProgState) : ProgState :=
  { st with sh := st.sh.offset d }

/-- Decides whether `pat` is an initial segment of `l` (for substring tests
on serialized fragments). -/
def lpre : List Char → List Char → Bool
  | [], _ => true
  | _ :: _, [] => false
  | a :: as, b :: bs => a == b && lpre as bs

/-- Decides whether `pat` occurs contiguously inside `s`. -/
def strHas (s pat : String) : Bool :=
  (List.range (s.data.length + 1)).any (fun i => lpre pat.data (s.data.drop i))

/-!
Heap model for `svg::Container`.

`Container` owns its children through `std::vector<std::unique_ptr<Shape>>`:
every child lives in its own allocation and `Container(Container const &)`
(and `clone`) allocates a fresh copy of each child recursively, while a
shallow copy of the pointer vector would alias. To make that observable, the
ownership graph is modelled explicitly: a heap is a list of cells addressed by
their index, a leaf cell stores a shape by value and a group cell stores the
`Container`'s fill, stroke, and the addresses of its children. Allocation
(`new`) appends a cell at the end of the heap.
-/

/-- One heap allocation: either a non-group shape held by value, or a
`Container` whose `childs` vector holds the addresses of its children. -/
inductive Cell where
  | leaf (s : Shape)
  | group (fill : Fill) (stroke : Stroke) (childs : List Nat)

/-- A heap: cell `a` lives at index `a`; `new` appends at the end. -/
abbrev Heap := List Cell

mutual

/-- Mirrors `svg::Shape::clone` on the heap: a leaf is copied into a fresh
allocation; a group first clones every child (the loop of
`Container(Container const &)`), then allocates the new container cell whose
child vector holds the fresh addresses. The fuel argument bounds the recursion
depth (the C++ model assumes the ownership graph is a tree). -/
def cloneCell : Nat → Heap → Nat → Option (Heap × Nat)
  | 0, _, _ => none
  | fuel + 1, h, a =>
    match h[a]? with
    | none => none
    | some (Cell.leaf s) => some (h ++ [Cell.leaf s], h.length)
    | some (Cell.group fill stroke cs) =>
      match cloneCells fuel h cs with
      | none => none
      | some (h1, cs1) => some (h1 ++ [Cell.group fill stroke cs1], h1.length)

/-- The child loop of `Container(Container const &)`: clones the children one
after the other, threading the heap. -/
def cloneCells : Nat → Heap → List Nat → Option (Heap × List Nat)
  | _, h, [] => some (h, [])
  | 0, _, _ :: _ => none
  | fuel + 1, h, a :: as =>
    match cloneCell fuel h a with
    | none => none
    | some (h1, a1) =>
      match cloneCells fuel h1 as with
      | none => none
      | some (h2, as2) => some (h2, a1 :: as2)

end

mutual

/-- Reads the shape value owned by address `a` back out of the heap,
dereferencing child pointers recursively. -/
def reifyCell : Nat → Heap → Nat → Option Shape
  | 0, _, _ => none
  | fuel + 1, h, a =>
    match h[a]? with
    | none => none
    | some (Cell.leaf s) => some s
    | some (Cell.group fill stroke cs) =>
      match reifyCells fuel h cs with
      | none => none
      | some ss => some (Shape.container fill stroke ss)

/-- Reads a child list back out of the heap. -/
def reifyCells : Nat → Heap → List Nat → Option (List Shape)
  | _, _, [] => some []
  | 0, _, _ :: _ => none
  | fuel + 1, h, a :: as =>
    match reifyCell fuel h a with
    | none => none
    | some s =>
      match reifyCells fuel h as with
      | none => none
      | some ss => some (s :: ss)

end

/-- Mirrors calling `offset(d)` on the object stored at address `a`: a leaf
shape is translated in place; `Container::offset` has an empty body, so a
group cell is left untouched. -/
def offsetAt (h : Heap) (a : Nat) (d : Point) : Heap :=
  match h[a]? with
  | some (Cell.leaf s) => h.set a (Cell.leaf (Shape.offset d s))
  | _ => h

/-- All child pointers of the cell point at or above address `lo`. -/
def cellLB (lo : Nat) : Cell → Prop
  | Cell.leaf _ => True
  | Cell.group _ _ cs => ∀ b ∈ cs, lo ≤ b

/-- Streaming a whole list of shapes into a document, one `operator<<` call
after the other. -/
def Document.appendAll (doc : Document) (shapes : List Shape) : Document :=
  shapes.foldl Document.append doc

/-- Mirrors the quick `svg::optional` class: a validity flag plus a payload
(the payload is default-constructed when invalid). -/
structure optional (T : Type) where
  valid : Bool
  type : T

/-- Mirrors `svg::optional<T>::operator->`: dereferencing an invalid optional
throws an exception, modelled as the `Except.error` outcome. -/
def optional.deref {T : Type} (o : optional T) : Except Unit T :=
  if o.valid then Except.ok o.type else Except.error ()

/-- Mirrors `svg::getMinPoint`: an invalid optional on an empty collection,
otherwise the component-wise minimum accumulated from the first point. -/
def getMinPoint (points : List Point) : optional Point :=
  match points with
  | [] => ⟨false, ⟨0, 0⟩⟩
  | p0 :: rest =>
    ⟨true, (p0 :: rest).foldl
      (fun m p => ⟨if p.x < m.x then p.x else m.x, if p.y < m.y then p.y else m.y⟩) p0⟩

/-- Mirrors `svg::getMaxPoint`: an invalid optional on an empty collection,
otherwise the component-wise maximum accumulated from the first point. -/
def getMaxPoint (points : List Point) : optional Point :=
  match points with
  | [] => ⟨false, ⟨0, 0⟩⟩
  | p0 :: rest =>
    ⟨true, (p0 :: rest).foldl
      (fun m p => ⟨if m.x < p.x then p.x else m.x, if m.y < p.y then p.y else m.y⟩) p0⟩

/-- Models `svg::Color(Color::Transparent)`: the default switch branch sets
the transparent flag with zeroed channels. -/
def colorTransparent : Color :=
  ⟨true, 0, 0, 0⟩

/-- Models a default-constructed `svg::Fill` (transparent color). -/
def fillDefault : Fill :=
  ⟨colorTransparent⟩

/-- Models a default-constructed `svg::Stroke` (width −1 sentinel). -/
def strokeDefault : Stroke :=
  ⟨-1, colorTransparent, false⟩

/-- The layout of the demo in main.cpp: a 100×100 canvas with a BottomLeft
origin, scale 1 and no origin offset. -/
def layoutBL : Layout :=
  ⟨⟨100, 100⟩, 1, Origin.BottomLeft, ⟨0, 0⟩⟩

/-- The identity layout: TopLeft origin, scale 1, no offset. -/
def layoutTL : Layout :=
  ⟨⟨400, 300⟩, 1, Origin.TopLeft, ⟨0, 0⟩⟩

/-- The circle of the spec's end-to-end scenario: center (80,80), diameter 40
(radius 20), default fill and stroke. -/
def circleBL : Shape :=
  Shape.circle ⟨80, 80⟩ 20 fillDefault strokeDefault

/-- A document over `layoutBL` with that one circle streamed in. -/
def docBL : Document :=
  (Document.new "my_svg.svg" layoutBL).append circleBL

/-- Modelled from the spec: the claim's wrapper strategy requires the body of
a rendered non-TopLeft document to be the single serialize call of a synthetic
`Container` holding all top-level shapes; the `Container` of this code carries
no transform state beyond its fill and stroke, so the synthetic container is
quantified over those. -/
def bodyFromWrapperContainer (layout : Layout) (shapes : List Shape) (body : String) : Prop :=
  ∃ fill stroke, body = Shape.toString layout (Shape.container fill stroke shapes)

/-- A tiny concrete ownership graph: a circle cell at address 0 owned by a
container cell at address 1. -/
def heapW : Heap :=
  [Cell.leaf (Shape.circle ⟨10, 10⟩ 5 fillDefault strokeDefault),
   Cell.group fillDefault strokeDefault [0]]

/-- The heap after cloning the container at address 1 of `heapW`: the child
copy lands at address 2, the container copy at address 3. -/
def heapWC : Heap :=
  heapW ++ [Cell.leaf (Shape.circle ⟨10, 10⟩ 5 fillDefault strokeDefault),
    Cell.group fillDefault strokeDefault [2]]

theorem cellLB_mono {lo lo' : Nat} (hle : lo ≤ lo') {c : Cell} (h : cellLB lo' c) :
    cellLB lo c := by
  cases c with
  | leaf s => trivial
  | group fill stroke cs => exact fun b hb => le_trans hle (h b hb)

/-- Cloning only allocates: the new heap extends the old one, the returned
address is fresh (at or above the old heap's length), and every cell in the
freshly allocated region only points into the fresh region. -/
theorem clone_spec : ∀ f : Nat,
    (∀ h a h2 a2, cloneCell f h a = some (h2, a2) →
      (∃ ext, h2 = h ++ ext) ∧ h.length ≤ a2 ∧ a2 < h2.length ∧
        ∀ i c, h.length ≤ i → h2[i]? = some c → cellLB h.length c)
    ∧ (∀ h as h2 as2, cloneCells f h as = some (h2, as2) →
      (∃ ext, h2 = h ++ ext) ∧ (∀ b ∈ as2, h.length ≤ b ∧ b < h2.length) ∧
        ∀ i c, h.length ≤ i → h2[i]? = some c → cellLB h.length c) := by
  intro f
  induction f with
  | zero =>
    refine ⟨fun h a h2 a2 hcl => by simp [cloneCell] at hcl, fun h as h2 as2 hcl => ?_⟩
    cases as with
    | nil =>
      simp only [cloneCells, Option.some.injEq, Prod.mk.injEq] at hcl
      obtain ⟨rfl, rfl⟩ := hcl
      refine ⟨⟨[], by simp⟩, by simp, fun i c hi hg => ?_⟩
      rw [List.getElem?_eq_none hi] at hg
      exact absurd hg (by simp)
    | cons a as => simp [cloneCells] at hcl
  | succ f ih =>
    obtain ⟨ihc, ihl⟩ := ih
    constructor
    · intro h a h2 a2 hcl
      simp only [cloneCell] at hcl
      cases hga : h[a]? with
      | none => rw [hga] at hcl; exact absurd hcl (by simp)
      | some cell =>
        rw [hga] at hcl
        cases cell with
        | leaf s =>
          simp only [Option.some.injEq, Prod.mk.injEq] at hcl
          obtain ⟨rfl, rfl⟩ := hcl
          refine ⟨⟨[Cell.leaf s], rfl⟩, le_refl _, by simp, fun i c hi hg => ?_⟩
          rcases Nat.eq_or_lt_of_le hi with heq | hlt
          · rw [← heq, List.getElem?_concat_length] at hg
            cases hg
            trivial
          · rw [List.getElem?_eq_none (by simpa using hlt)] at hg
            exact absurd hg (by simp)
        | group fill stroke cs =>
          dsimp only at hcl
          cases hcs : cloneCells f h cs with
          | none => rw [hcs] at hcl; exact absurd hcl (by simp)
          | some pr =>
            obtain ⟨h1, cs1⟩ := pr
            rw [hcs] at hcl
            simp only [Option.some.injEq, Prod.mk.injEq] at hcl
            obtain ⟨rfl, rfl⟩ := hcl
            obtain ⟨⟨ext1, rfl⟩, hbnds, hcells⟩ := ihl h cs _ cs1 hcs
            refine ⟨⟨ext1 ++ [Cell.group fill stroke cs1], by simp⟩, by simp, by simp, ?_⟩
            intro i c hi hg
            rcases lt_trichotomy i (h ++ ext1).length with hlt | heq | hgt
            · rw [List.getElem?_append_left hlt] at hg
              exact hcells i c hi hg
            · rw [heq, List.getElem?_concat_length] at hg
              cases hg
              exact fun b hb => (hbnds b hb).1
            · rw [List.getElem?_eq_none (by simp at hgt ⊢; omega)] at hg
              exact absurd hg (by simp)
    · intro h as h2 as2 hcl
      cases as with
      | nil =>
        simp only [cloneCells, Option.some.injEq, Prod.mk.injEq] at hcl
        obtain ⟨rfl, rfl⟩ := hcl
        refine ⟨⟨[], by simp⟩, by simp, fun i c hi hg => ?_⟩
        rw [List.getElem?_eq_none hi] at hg
        exact absurd hg (by simp)
      | cons a as =>
        simp only [cloneCells] at hcl
        cases hca : cloneCell f h a with
        | none => rw [hca] at hcl; exact absurd hcl (by simp)
        | some pr1 =>
          obtain ⟨h1, a1⟩ := pr1
          rw [hca] at hcl
          dsimp only at hcl
          cases hcs : cloneCells f h1 as with
          | none => rw [hcs] at hcl; exact absurd hcl (by simp)
          | some pr2 =>
            obtain ⟨hB, as2'⟩ := pr2
            rw [hcs] at hcl
            simp only [Option.some.injEq, Prod.mk.injEq] at hcl
            obtain ⟨rfl, rfl⟩ := hcl
            obtain ⟨⟨ext1, rfl⟩, ha1lo, ha1hi, hcells1⟩ := ihc h a _ a1 hca
            obtain ⟨⟨ext2, rfl⟩, hbnds2, hcells2⟩ := ihl (h ++ ext1) as _ as2' hcs
            have hlen1 : h.length ≤ (h ++ ext1).length := by simp
            refine ⟨⟨ext1 ++ ext2, by simp⟩, ?_, ?_⟩
            · intro b hb
              rcases List.mem_cons.mp hb with rfl | hb
              · exact ⟨ha1lo, lt_of_lt_of_le ha1hi (by simp)⟩
              · exact ⟨le_trans hlen1 (hbnds2 b hb).1, (hbnds2 b hb).2⟩
            · intro i c hi hg
              rcases lt_or_le i (h ++ ext1).length with hlt | hge
              · rw [List.getElem?_append_left hlt] at hg
                exact hcells1 i c hi hg
              · exact cellLB_mono hlen1 (hcells2 i c hge hg)

/-- Reading a shape back is stable under extending the heap with fresh cells. -/
theorem reify_append : ∀ g : Nat,
    (∀ h ext a s, reifyCell g h a = some s → reifyCell g (h ++ ext) a = some s)
    ∧ (∀ h ext as ss, reifyCells g h as = some ss → reifyCells g (h ++ ext) as = some ss) := by
  intro g
  induction g with
  | zero =>
    refine ⟨fun h ext a s hr => by simp [reifyCell] at hr, fun h ext as ss hr => ?_⟩
    cases as with
    | nil => simpa [reifyCells] using hr
    | cons a as => simp [reifyCells] at hr
  | succ g ih =>
    obtain ⟨ihc, ihl⟩ := ih
    constructor
    · intro h ext a s hr
      simp only [reifyCell] at hr ⊢
      cases hga : h[a]? with
      | none => rw [hga] at hr; exact absurd hr (by simp)
      | some cell =>
        have halt : a < h.length := by
          by_contra hh
          rw [List.getElem?_eq_none (Nat.le_of_not_lt hh)] at hga
          exact absurd hga (by simp)
        have hga2 : (h ++ ext)[a]? = some cell := by
          rw [List.getElem?_append_left halt]; exact hga
        rw [hga] at hr
        rw [hga2]
        cases cell with
        | leaf s2 => exact hr
        | group fill stroke cs =>
          dsimp only at hr ⊢
          cases hcs : reifyCells g h cs with
          | none => rw [hcs] at hr; exact absurd hr (by simp)
          | some ss2 =>
            rw [hcs] at hr
            rw [ihl h ext cs ss2 hcs]
            exact hr
    · intro h ext as ss hr
      cases as with
      | nil => simpa [reifyCells] using hr
      | cons a as =>
        simp only [reifyCells] at hr ⊢
        cases hca : reifyCell g h a with
        | none => rw [hca] at hr; exact absurd hr (by simp)
        | some s1 =>
          rw [hca] at hr
          dsimp only at hr
          rw [ihc h ext a s1 hca]
          dsimp only
          cases hcs : reifyCells g h as with
          | none => rw [hcs] at hr; exact absurd hr (by simp)
          | some ss2 =>
            rw [hcs] at hr
            rw [ihl h ext as ss2 hcs]
            exact hr

/-- Reading a shape rooted at or above `lo` only depends on the cells at or
above `lo`, provided those cells only point at or above `lo` (as the cells
produced by cloning do). -/
theorem reify_agree : ∀ g lo : Nat, ∀ h h3 : Heap,
    (∀ i, lo ≤ i → h3[i]? = h[i]?) →
    (∀ i c, lo ≤ i → h[i]? = some c → cellLB lo c) →
    (∀ a, lo ≤ a → reifyCell g h3 a = reifyCell g h a)
    ∧ (∀ as, (∀ b ∈ as, lo ≤ b) → reifyCells g h3 as = reifyCells g h as) := by
  intro g
  induction g with
  | zero =>
    intro lo h h3 _ _
    refine ⟨fun a _ => by simp [reifyCell], fun as _ => ?_⟩
    cases as with
    | nil => rfl
    | cons a as => simp [reifyCells]
  | succ g ih =>
    intro lo h h3 hagree hclosed
    obtain ⟨ihc, ihl⟩ := ih lo h h3 hagree hclosed
    constructor
    · intro a ha
      simp only [reifyCell]
      rw [hagree a ha]
      cases hga : h[a]? with
      | none => rfl
      | some cell =>
        cases cell with
        | leaf s => rfl
        | group fill stroke cs =>
          dsimp only
          have hLB : ∀ b ∈ cs, lo ≤ b := hclosed a _ ha hga
          rw [ihl cs hLB]
    · intro as has
      cases as with
      | nil => rfl
      | cons a as =>
        simp only [reifyCells]
        rw [ihc a (has a (by simp)), ihl as (fun b hb => has b (by simp [hb]))]

/-- Cloning preserves the owned value: whatever shape the original address
denotes, the returned address denotes the same shape in the new heap. -/
theorem clone_reify : ∀ f : Nat,
    (∀ h a h2 a2, cloneCell f h a = some (h2, a2) →
      ∀ g s, reifyCell g h a = some s → reifyCell g h2 a2 = some s)
    ∧ (∀ h as h2 as2, cloneCells f h as = some (h2, as2) →
      ∀ g ss, reifyCells g h as = some ss → reifyCells g h2 as2 = some ss) := by
  intro f
  induction f with
  | zero =>
    refine ⟨fun h a h2 a2 hcl => by simp [cloneCell] at hcl,
      fun h as h2 as2 hcl g ss hr => ?_⟩
    cases as with
    | nil =>
      simp only [cloneCells, Option.some.injEq, Prod.mk.injEq] at hcl
      obtain ⟨rfl, rfl⟩ := hcl
      exact hr
    | cons a as => simp [cloneCells] at hcl
  | succ f ih =>
    obtain ⟨ihc, ihl⟩ := ih
    constructor
    · intro h a h2 a2 hcl g s hr
      cases g with
      | zero => simp [reifyCell] at hr
      | succ g =>
        simp only [cloneCell] at hcl
        simp only [reifyCell] at hr ⊢
        cases hga : h[a]? with
        | none => rw [hga] at hcl; exact absurd hcl (by simp)
        | some cell =>
          rw [hga] at hcl hr
          cases cell with
          | leaf s0 =>
            simp only [Option.some.injEq, Prod.mk.injEq] at hcl
            obtain ⟨rfl, rfl⟩ := hcl
            rw [List.getElem?_concat_length]
            exact hr
          | group fill stroke cs =>
            dsimp only at hcl hr
            cases hcs : cloneCells f h cs with
            | none => rw [hcs] at hcl; exact absurd hcl (by simp)
            | some pr =>
              obtain ⟨h1, cs1⟩ := pr
              rw [hcs] at hcl
              simp only [Option.some.injEq, Prod.mk.injEq] at hcl
              obtain ⟨rfl, rfl⟩ := hcl
              cases hrs : reifyCells g h cs with
              | none => rw [hrs] at hr; exact absurd hr (by simp)
              | some ss =>
                rw [hrs] at hr
                rw [List.getElem?_concat_length]
                dsimp only
                have h1r : reifyCells g h1 cs1 = some ss := ihl h cs h1 cs1 hcs g ss hrs
                have h2r : reifyCells g (h1 ++ [Cell.group fill stroke cs1]) cs1 = some ss :=
                  (reify_append g).2 h1 [Cell.group fill stroke cs1] cs1 ss h1r
                rw [h2r]
                exact hr
    · intro h as h2 as2 hcl g ss hr
      cases as with
      | nil =>
        simp only [cloneCells, Option.some.injEq, Prod.mk.injEq] at hcl
        obtain ⟨rfl, rfl⟩ := hcl
        exact hr
      | cons a as =>
        cases g with
        | zero => simp [reifyCells] at hr
        | succ g =>
          simp only [cloneCells] at hcl
          simp only [reifyCells] at hr
          cases hca : cloneCell f h a with
          | none => rw [hca] at hcl; exact absurd hcl (by simp)
          | some pr1 =>
            obtain ⟨hA, a1⟩ := pr1
            rw [hca] at hcl
            dsimp only at hcl
            cases hcs : cloneCells f hA as with
            | none => rw [hcs] at hcl; exact absurd hcl (by simp)
            | some pr2 =>
              obtain ⟨hB, as2'⟩ := pr2
              rw [hcs] at hcl
              simp only [Option.some.injEq, Prod.mk.injEq] at hcl
              obtain ⟨rfl, rfl⟩ := hcl
              cases hra : reifyCell g h a with
              | none => rw [hra] at hr; exact absurd hr (by simp)
              | some s1 =>
                rw [hra] at hr
                dsimp only at hr
                cases hrs : reifyCells g h as with
                | none => rw [hrs] at hr; exact absurd hr (by simp)
                | some ss1 =>
                  rw [hrs] at hr
                  obtain ⟨ext1, rfl⟩ : ∃ ext, hA = h ++ ext :=
                    ((clone_spec f).1 h a _ a1 hca).1
                  obtain ⟨ext2, rfl⟩ : ∃ ext, hB = (h ++ ext1) ++ ext :=
                    ((clone_spec f).2 (h ++ ext1) as _ as2' hcs).1
                  have hs1 : reifyCell g (h ++ ext1) a1 = some s1 :=
                    ihc h a _ a1 hca g s1 hra
                  have hs1B : reifyCell g ((h ++ ext1) ++ ext2) a1 = some s1 :=
                    (reify_append g).1 (h ++ ext1) ext2 a1 s1 hs1
                  have hssA : reifyCells g (h ++ ext1) as = some ss1 :=
                    (reify_append g).2 h ext1 as ss1 hrs
                  have hssB : reifyCells g ((h ++ ext1) ++ ext2) as2' = some ss1 :=
                    ihl (h ++ ext1) as _ as2' hcs g ss1 hssA
                  simp only [reifyCells]
                  rw [hs1B]
                  dsimp only
                  rw [hssB]
                  exact hr

theorem lpre_append (a b : List Char) : lpre a (a ++ b) = true := by
  induction a with
  | nil => rfl
  | cons c cs ih => simp [lpre, ih]

theorem strHas_of_data_eq (s pat : String) (rest : List Char)
    (h : s.data = pat.data ++ rest) : strHas s pat = true := by
  unfold strHas
  apply List.any_eq_true.mpr
  exact ⟨0, by simp, by simp [h, lpre_append]⟩

theorem head?_append_left (s t : String) (c : Char) (h : s.data.head? = some c) :
    (s ++ t).data.head? = some c := by
  rw [String.data_append]
  cases hd : s.data with
  | nil => rw [hd] at h; exact absurd h (by simp)
  | cons a as =>
    rw [hd] at h
    simp only [List.head?_cons, Option.some.injEq] at h
    simp [h]

theorem offsetPoint_neg_cancel (d p : Point) :
    offsetPoint (Point.neg d) (offsetPoint d p) = p := by
  cases p with
  | mk px py => simp [offsetPoint, Point.neg]

theorem offsetPoint_neg_comp (d : Point) :
    offsetPoint (Point.neg d) ∘ offsetPoint d = id :=
  funext fun p => offsetPoint_neg_cancel d p

theorem childsToString_eq_strJoin (layout : Layout) (cs : List Shape) :
    childsToString layout cs = strJoin (cs.map (fun c => indent (Shape.toString layout c))) := by
  induction cs with
  | nil => rfl
  | cons c cs ih => simp only [childsToString, List.map_cons, strJoin, ih]

theorem dOfPaths_eq_strJoin (layout : Layout) (ps : List (List Point)) :
    dOfPaths layout ps = strJoin (ps.map (fun sp =>
      if sp = [] then "" else "M" ++ strJoin (sp.map (pointPairStr layout)) ++ "z ")) := by
  induction ps with
  | nil => rfl
  | cons sp rest ih => simp only [dOfPaths, List.map_cons, strJoin, ih]

theorem appendAll_spec (doc : Document) (shapes : List Shape) :
    (doc.appendAll shapes).body_nodes_str_list
      = doc.body_nodes_str_list ++ shapes.map (Shape.toString doc.layout)
    ∧ (doc.appendAll shapes).layout = doc.layout
    ∧ (doc.appendAll shapes).file_name = doc.file_name := by
  induction shapes generalizing doc with
  | nil => simp [Document.appendAll]
  | cons s ss ih =>
    have h := ih (doc.append s)
    refine ⟨?_, h.2.1, h.2.2⟩
    rw [show doc.appendAll (s :: ss) = (doc.append s).appendAll ss from rfl, h.1]
    simp [Document.append]

/-- C2: for every real x, y, d and every Layout, `translateX` flips against
the canvas width exactly when the origin is on the right edge, `translateY`
flips against the height exactly when the origin is on the bottom edge, and
`translateScale` only multiplies lengths by the scale, never flipping or
offsetting them. -/
theorem claim_C2_transform_functions (x y dlen : Rat) (layout : Layout) :
    translateX x layout =
      (if layout.origin = Origin.TopRight ∨ layout.origin = Origin.BottomRight then
        layout.dimensions.width - (x + layout.origin_offset.x) * layout.scale
      else (layout.origin_offset.x + x) * layout.scale)
    ∧ translateY y layout =
      (if layout.origin = Origin.BottomLeft ∨ layout.origin = Origin.BottomRight then
        layout.dimensions.height - (y + layout.origin_offset.y) * layout.scale
      else (layout.origin_offset.y + y) * layout.scale)
    ∧ translateScale dlen layout = dlen * layout.scale := by
  refine ⟨?_, ?_, rfl⟩
  · cases h : layout.origin <;> simp [translateX, h]
  · cases h : layout.origin <;> simp [translateY, h]

/-- C7: for every shape variant and offset Δ, applying `offset Δ` and then
`offset (−Δ)` restores the original geometry exactly (exact rational
arithmetic). -/
theorem claim_C7_offset_round_trip (s : Shape) (d : Point) :
    Shape.offset (Point.neg d) (Shape.offset d s) = s := by
  cases s <;>
    simp [Shape.offset, offsetPoint_neg_cancel, List.map_map, offsetPoint_neg_comp,
      List.map_id]

/-- C9: `Container::offset` is a no-op: the container value, children
included, is unchanged, hence its serialization before and after the call is
identical. -/
theorem claim_C9_container_offset_noop (d : Point) (fill : Fill) (stroke : Stroke)
    (childs : List Shape) :
    Shape.offset d (Shape.container fill stroke childs) = Shape.container fill stroke childs
    ∧ ∀ layout, Shape.toString layout (Shape.offset d (Shape.container fill stroke childs))
        = Shape.toString layout (Shape.container fill stroke childs) :=
  ⟨rfl, fun _ => rfl⟩

/-- C8: for every Layout, a Container with zero children serializes to the
empty string (never an empty group element), and with at least one child it
emits a group element containing each child's indented fragment in insertion
order. -/
theorem claim_C8_container_serialization (layout : Layout) (fill : Fill) (stroke : Stroke) :
    Shape.toString layout (Shape.container fill stroke []) = ""
    ∧ ∀ (c : Shape) (cs : List Shape),
        Shape.toString layout (Shape.container fill stroke (c :: cs)) =
          elemStart "g" ++ Fill.toString layout fill ++ Stroke.toString layout stroke ++ ">\n"
            ++ strJoin ((c :: cs).map (fun ch => indent (Shape.toString layout ch)))
            ++ elemEnd "g" := by
  constructor
  · rfl
  · intro c cs
    rw [show Shape.toString layout (Shape.container fill stroke (c :: cs))
        = elemStart "g" ++ Fill.toString layout fill ++ Stroke.toString layout stroke ++ ">\n"
          ++ childsToString layout (c :: cs) ++ elemEnd "g" from rfl,
      childsToString_eq_strJoin]

/-- C10: `Document::operator<<` serializes the shape at append time and
stores only the resulting string, so offsetting the shape afterwards leaves
the document (and its rendered output) unchanged. -/
theorem claim_C10_document_stores_strings (st : ProgState) (d : Point) :
    (stepAppend st).doc.body_nodes_str_list
      = st.doc.body_nodes_str_list ++ [Shape.toString st.doc.layout st.sh]
    ∧ (stepOffset d (stepAppend st)).doc = (stepAppend st).doc
    ∧ (stepOffset d (stepAppend st)).doc.toString = (stepAppend st).doc.toString :=
  ⟨rfl, rfl, rfl⟩

/-- C4: for every Layout, a Stroke with negative width serializes to the
empty string, while a Stroke with width ≥ 0 (including 0) serializes a
non-empty fragment containing the stroke-width and stroke attributes. -/
theorem claim_C4_stroke_sentinel (layout : Layout) (w : Rat) (c : Color) (ns : Bool) :
    (w < 0 → Stroke.toString layout ⟨w, c, ns⟩ = "")
    ∧ (0 ≤ w →
        Stroke.toString layout ⟨w, c, ns⟩ ≠ ""
        ∧ strHas (Stroke.toString layout ⟨w, c, ns⟩) "stroke-width" = true
        ∧ strHas (Stroke.toString layout ⟨w, c, ns⟩) "stroke" = true) := by
  constructor
  · intro hneg
    simp [Stroke.toString, hneg]
  · intro hpos
    have hw : ¬ (w < 0) := not_lt.mpr hpos
    have hdata : (Stroke.toString layout ⟨w, c, ns⟩).data
        = "stroke-width".data
          ++ (("=\"" ++ showNum (translateScale w layout) ++ "\" "
            ++ (attrStr "stroke" (Color.toString layout c) ""
              ++ (if ns then attrStr "vector-effect" "non-scaling-stroke" "" else ""))).data) := by
      rw [← String.data_append]
      congr 1
      simp [Stroke.toString, hw, attrStr, String.append_assoc]
      conv_rhs => rw [← String.append_assoc]
      rfl
    refine ⟨?_, ?_, ?_⟩
    · intro hcontra
      rw [hcontra] at hdata
      exact absurd hdata.symm (by simp)
    · exact strHas_of_data_eq _ _ _ hdata
    · apply strHas_of_data_eq _ _ ("-width".data
        ++ ("=\"" ++ showNum (translateScale w layout) ++ "\" "
          ++ (attrStr "stroke" (Color.toString layout c) ""
            ++ (if ns then attrStr "vector-effect" "non-scaling-stroke" "" else ""))).data)
      rw [hdata, ← List.append_assoc]
      congr 1

/-- Witness for C4 at width −1 (omitted) and width 0 (serialized). -/
theorem claim_C4_witness :
    ((-1 : Rat) < 0 ∧ Stroke.toString layoutTL ⟨-1, colorTransparent, false⟩ = "")
    ∧ ((0 : Rat) ≤ 0
        ∧ Stroke.toString layoutTL ⟨0, colorTransparent, false⟩ ≠ ""
        ∧ strHas (Stroke.toString layoutTL ⟨0, colorTransparent, false⟩) "stroke-width" = true
        ∧ strHas (Stroke.toString layoutTL ⟨0, colorTransparent, false⟩) "stroke" = true) :=
  ⟨⟨by norm_num, (claim_C4_stroke_sentinel layoutTL (-1) colorTransparent false).1 (by norm_num)⟩,
   ⟨le_refl 0, (claim_C4_stroke_sentinel layoutTL 0 colorTransparent false).2 (le_refl 0)⟩⟩

/-- C5: `getMinPoint`/`getMaxPoint` of an empty point collection return an
invalid optional whose dereference is a checked access failure (an error, not
a silently returned zeroed point), while a non-empty collection yields a
valid optional. -/
theorem claim_C5_empty_bbox (ps : List Point) (hne : ps ≠ []) :
    (getMinPoint []).valid = false
    ∧ (getMaxPoint []).valid = false
    ∧ optional.deref (getMinPoint []) = Except.error ()
    ∧ optional.deref (getMaxPoint []) = Except.error ()
    ∧ (∀ o : optional Point, o.valid = false → optional.deref o = Except.error ())
    ∧ (getMinPoint ps).valid = true
    ∧ (getMaxPoint ps).valid = true := by
  refine ⟨rfl, rfl, rfl, rfl, fun o ho => by simp [optional.deref, ho], ?_, ?_⟩
  · cases ps with
    | nil => exact absurd rfl hne
    | cons p rest => rfl
  · cases ps with
    | nil => exact absurd rfl hne
    | cons p rest => rfl

/-- Witness for C5 on the one-element collection [(1,2)]. -/
theorem claim_C5_witness :
    ([Point.mk 1 2] ≠ [])
    ∧ (getMinPoint [Point.mk 1 2]).valid = true
    ∧ (getMaxPoint [Point.mk 1 2]).valid = true :=
  ⟨by decide, (claim_C5_empty_bbox [⟨1, 2⟩] (by decide)).2.2.2.2.2⟩

unseal Rat.add Rat.mul Rat.sub in
/-- C3: a new subpath is opened automatically before the first appended point
(a fresh Path holds one empty subpath); an explicit `startNewSubPath` on a
non-empty path state opens a new subpath exactly when the current (last)
subpath is non-empty; serialization renders each non-empty subpath as its own
closed `M...z ` segment under an even-odd fill rule; and appending A,B, then
starting a new subpath, then appending C,D yields two independent `M...z`
segments rather than one four-point loop. -/
theorem claim_C3_subpath_semantics (ps : List (List Point)) (hne : ps ≠ []) :
    pathNew = [[]]
    ∧ (startNewSubPath ps = ps ↔ ps.getLast? = some [])
    ∧ (∀ (layout : Layout) (sps : List (List Point)) (fill : Fill) (stroke : Stroke),
        Shape.toString layout (Shape.path sps fill stroke)
          = elemStart "path" ++ "d=\""
            ++ strJoin (sps.map (fun sp =>
                if sp = [] then "" else "M" ++ strJoin (sp.map (pointPairStr layout)) ++ "z "))
            ++ "\" " ++ "fill-rule=\"evenodd\" "
            ++ Fill.toString layout fill ++ Stroke.toString layout stroke ++ emptyElemEnd)
    ∧ pathAppend (pathAppend (startNewSubPath (pathAppend (pathAppend pathNew
          ⟨0, 0⟩) ⟨1, 1⟩)) ⟨2, 2⟩) ⟨3, 3⟩
        = [[⟨0, 0⟩, ⟨1, 1⟩], [⟨2, 2⟩, ⟨3, 3⟩]]
    ∧ Shape.toString layoutTL
          (Shape.path [[⟨0, 0⟩, ⟨1, 1⟩], [⟨2, 2⟩, ⟨3, 3⟩]] fillDefault strokeDefault)
        = "<path d=\"M0,0 1,1 z M2,2 3,3 z \" fill-rule=\"evenodd\" fill=\"none\" />\n" := by
  refine ⟨rfl, ?_, ?_, by decide, by decide⟩
  · cases k : ps.getLast? with
    | none => exact absurd (List.getLast?_eq_none_iff.mp k) hne
    | some l =>
      by_cases hl : l = []
      · subst hl
        simp [startNewSubPath, k]
      · simp only [startNewSubPath, k]
        rw [if_neg hl]
        constructor
        · intro hEq
          have hlen := congrArg List.length hEq
          simp at hlen
        · intro hEq
          exact absurd (Option.some.inj hEq) hl
  · intro layout sps fill stroke
    rw [show Shape.toString layout (Shape.path sps fill stroke)
        = elemStart "path" ++ "d=\"" ++ dOfPaths layout sps ++ "\" "
          ++ "fill-rule=\"evenodd\" "
          ++ Fill.toString layout fill ++ Stroke.toString layout stroke ++ emptyElemEnd
      from rfl, dOfPaths_eq_strJoin]

/-- Witness for C3 on the one-subpath state [[(0,0)]], whose last subpath is
non-empty, so an explicit `startNewSubPath` opens a new one. -/
theorem claim_C3_witness :
    ([[Point.mk 0 0]] ≠ ([] : List (List Point)))
    ∧ ¬ startNewSubPath [[Point.mk 0 0]] = [[Point.mk 0 0]] :=
  ⟨by decide,
    fun hEq => by
      have h := ((claim_C3_subpath_semantics [[Point.mk 0 0]] (by decide)).2.1).mp hEq
      exact absurd h (by decide)⟩

/-- C1 amended: rendering never branches on the layout origin. For every
file name, Layout (any origin) and list of top-level shapes, each shape is
serialized directly — with per-coordinate transforms, at append time — and the
rendered document is the fixed preamble, the indented per-shape fragments in
append order, and the closing tag; no synthetic wrapper Container is ever
created. -/
theorem claim_C1_direct_body (file_name : String) (layout : Layout) (shapes : List Shape) :
    ((Document.new file_name layout).appendAll shapes).toString
      = svgPreamble layout
        ++ strJoin (shapes.map (fun s => indent (Shape.toString layout s)))
        ++ elemEnd "svg" := by
  obtain ⟨hbody, hlayout, _⟩ := appendAll_spec (Document.new file_name layout) shapes
  rw [show ((Document.new file_name layout).appendAll shapes).toString
      = svgPreamble ((Document.new file_name layout).appendAll shapes).layout
        ++ ((Document.new file_name layout).appendAll shapes).body ++ elemEnd "svg" from rfl,
    hlayout]
  rw [show (Document.new file_name layout).layout = layout from rfl]
  rw [show ((Document.new file_name layout).appendAll shapes).body
      = strJoin ((((Document.new file_name layout).appendAll shapes).body_nodes_str_list).map
          indent) from rfl, hbody]
  rw [show (Document.new file_name layout).layout = layout from rfl]
  rw [show (Document.new file_name layout).body_nodes_str_list = ([] : List String) from rfl]
  rw [List.nil_append, List.map_map]
  rfl

unseal Rat.add Rat.mul Rat.sub in
/-- C1 counterexample: on the concrete BottomLeft document holding one
circle, the body is the circle's direct per-coordinate serialization
(cy = 100 − 80 = 20), indented — not the serialize output of any synthetic
wrapper Container (every non-empty Container fragment starts with a group
tag, but the body starts with a tab). -/
theorem claim_C1_counterexample :
    layoutBL.origin ≠ Origin.TopLeft
    ∧ docBL.body = "\t<circle cx=\"80\" cy=\"20\" r=\"20\" fill=\"none\" />\n"
    ∧ ¬ bodyFromWrapperContainer layoutBL [circleBL] docBL.body := by
  have hbody : docBL.body = "\t<circle cx=\"80\" cy=\"20\" r=\"20\" fill=\"none\" />\n" := by
    decide
  refine ⟨by decide, hbody, ?_⟩
  rintro ⟨fill, stroke, hEq⟩
  have hhead := congrArg (fun s : String => s.data.head?) hEq
  simp only at hhead
  have hL : docBL.body.data.head? = some '\t' := by rw [hbody]; decide
  have hR : (Shape.toString layoutBL (Shape.container fill stroke [circleBL])).data.head?
      = some '<' := by
    rw [show Shape.toString layoutBL (Shape.container fill stroke [circleBL])
        = elemStart "g" ++ Fill.toString layoutBL fill ++ Stroke.toString layoutBL stroke
          ++ ">\n" ++ childsToString layoutBL [circleBL] ++ elemEnd "g" from rfl]
    apply head?_append_left
    apply head?_append_left
    apply head?_append_left
    apply head?_append_left
    apply head?_append_left
    decide
  rw [hL, hR] at hhead
  exact absurd hhead (by decide)

/-- C6: cloning a container cell deep-copies the whole owned subtree: the
clone denotes the same shape value as the original, and offsetting any cell
of the original heap afterwards leaves both the duplicate's reified geometry
and its serialization unchanged. -/
theorem claim_C6_clone_independence
    (fuel : Nat) (h : Heap) (a : Nat) (h2 : Heap) (a2 : Nat)
    (hclone : cloneCell fuel h a = some (h2, a2))
    (addr : Nat) (haddr : addr < h.length) :
    (∀ g s, reifyCell g h a = some s → reifyCell g h2 a2 = some s)
    ∧ (∀ g d, reifyCell g (offsetAt h2 addr d) a2 = reifyCell g h2 a2)
    ∧ (∀ g d layout,
        Option.map (Shape.toString layout) (reifyCell g (offsetAt h2 addr d) a2)
          = Option.map (Shape.toString layout) (reifyCell g h2 a2)) := by
  obtain ⟨⟨ext, rfl⟩, hlo, hhi, hcells⟩ := (clone_spec fuel).1 h a h2 a2 hclone
  have hagree : ∀ d : Point, ∀ i, h.length ≤ i →
      (offsetAt (h ++ ext) addr d)[i]? = (h ++ ext)[i]? := by
    intro d i hi
    unfold offsetAt
    cases hga : (h ++ ext)[addr]? with
    | none => rfl
    | some cell =>
      cases cell with
      | leaf s => exact List.getElem?_set_ne (by omega)
      | group fill stroke cs => rfl
  have hmain : ∀ g d, reifyCell g (offsetAt (h ++ ext) addr d) a2
      = reifyCell g (h ++ ext) a2 :=
    fun g d => (reify_agree g h.length (h ++ ext) (offsetAt (h ++ ext) addr d)
      (hagree d) hcells).1 a2 hlo
  exact ⟨fun g s hr => (clone_reify fuel).1 h a _ a2 hclone g s hr,
    hmain, fun g d layout => by rw [hmain g d]⟩

/-- Witness for C6: cloning the container at address 1 of the two-cell heap
`heapW` (fuel 3) allocates its child copy at address 2 and the container copy
at address 3; offsetting the original child at address 0 leaves the
duplicate's reified value unchanged. -/
theorem claim_C6_witness :
    cloneCell 3 heapW 1 = some (heapWC, 3)
    ∧ 0 < heapW.length
    ∧ reifyCell 3 (offsetAt heapWC 0 ⟨5, 7⟩) 3 = reifyCell 3 heapWC 3 :=
  ⟨rfl, by decide,
    (claim_C6_clone_independence 3 heapW 1 heapWC 3 rfl 0 (by decide)).2.1 3 ⟨5, 7⟩⟩

end SimpleSvg
